import Mathlib

/-!
A shallow embedding of `src/docx2txt/docx2txt.py` (the `docx2txt` package):
the XML-to-text transformer `xml2text`, the post-processing helper
`strip_list`, and the part assembler `process`, together with the image
extraction pass.  XML parts are modelled as already-parsed element trees
(`ET.fromstring` is the boundary: a binary entry fails to parse), machine
strings as Lean `String`, and the zip archive as an ordered list of named
entries.
-/

namespace Docx2txt

/-- The namespace map of the source (`nsmap`). -/
def nsmap : List (String × String) :=
  [("w", "http://schemas.openxmlformats.org/wordprocessingml/2006/main")]

/-- `tag.split(':')` on the character list: split at every colon. -/
def splitColon : List Char → List (List Char)
  | [] => [[]]
  | c :: cs =>
    match splitColon cs with
    | [] => [[c]]
    | t :: ts => if c = ':' then [] :: t :: ts else (c :: t) :: ts

/-- `qn(tag)`: turn `w:t` into the Clark-notation name
`\x7bhttp://...main\x7dt`, as the source's `qn` does via `nsmap`. -/
def qn (tag : String) : String :=
  match splitColon tag.data with
  | [p, tagroot] =>
    match nsmap.find? (fun pr => pr.1 = String.mk p) with
    | some pr => "\x7b" ++ pr.2 ++ "\x7d" ++ String.mk tagroot
    | none => ""
  | _ => ""

/-- An XML element as seen by `ElementTree`: a tag, the attribute list in
document order (`child.attrib`), the text before the first child
(`child.text`), and the child elements. -/
inductive XmlElem where
  | mk (tag : String) (attrib : List (String × String))
      (text : Option String) (children : List XmlElem)

def XmlElem.tag : XmlElem → String
  | .mk t _ _ _ => t

def XmlElem.attrib : XmlElem → List (String × String)
  | .mk _ a _ _ => a

def XmlElem.text : XmlElem → Option String
  | .mk _ _ tx _ => tx

def XmlElem.children : XmlElem → List XmlElem
  | .mk _ _ _ cs => cs

mutual

/-- `root.iter()`: the element itself followed by all descendants in
document (depth-first preorder) order. -/
def preorder : XmlElem → List XmlElem
  | .mk t a tx cs => .mk t a tx cs :: preorderList cs

def preorderList : List XmlElem → List XmlElem
  | [] => []
  | c :: cs => preorder c ++ preorderList cs

end

/-- The text contributed by one visited node in non-split mode: the body of
the loop of `xml2text` with `split_pages` false (the page-break branch is
short-circuited away by `split_pages and ...`). -/
def nodeTextStr (e : XmlElem) : String :=
  if e.tag = qn "w:t" then (e.text).getD ""
  else if e.tag = qn "w:tab" then "\t"
  else if e.tag = qn "w:br" ∨ e.tag = qn "w:cr" then "\n"
  else if e.tag = qn "w:p" then "\n\n"
  else ""

/-- `xml2text(xml, split_pages=False)`: fold the node contributions over the
document-order traversal, accumulating with `text += ...`. -/
def xml2textStr (root : XmlElem) : String :=
  (preorder root).foldl (fun acc e => acc ++ nodeTextStr e) ""

/-- Runtime errors of the embedded code: `KeyError` (absent zip entry),
`ET.ParseError` (entry bytes are not XML), `IndexError`
(`list(child.attrib.values())[0]` on an empty attribute dict). -/
inductive PErr where
  | keyError
  | parseError
  | indexError
deriving DecidableEq

/-- One loop step of `xml2text` with `split_pages` true, acting on the state
`(texts, text)`.  On a `w:br` node the source evaluates
`list(child.attrib.values())[0] == "page"`, which raises `IndexError` when
the attribute dict is empty; a first attribute value `"page"` flushes the
accumulator, any other first value falls through to the newline branch. -/
def stepSplit (s : List String × String) (e : XmlElem) :
    Except PErr (List String × String) :=
  if e.tag = qn "w:t" then .ok (s.1, s.2 ++ (e.text).getD "")
  else if e.tag = qn "w:tab" then .ok (s.1, s.2 ++ "\t")
  else if e.tag = qn "w:br" then
    match e.attrib with
    | [] => .error .indexError
    | (_, v) :: _ =>
      if v = "page" then .ok (s.1 ++ [s.2], "") else .ok (s.1, s.2 ++ "\n")
  else if e.tag = qn "w:cr" then .ok (s.1, s.2 ++ "\n")
  else if e.tag = qn "w:p" then .ok (s.1, s.2 ++ "\n\n")
  else .ok s

/-- `xml2text(xml, split_pages=True)`: run the loop over the traversal and
return `texts`.  Note the source returns `texts` as is: the trailing
accumulator `text` is not appended before the return. -/
def xml2textSplit (root : XmlElem) : Except PErr (List String) :=
  ((preorder root).foldlM stepSplit ([], "")).map (fun s => s.1)

/-- `strip_list(lst)`: pop falsy (empty-string) elements from the back,
then from the front. -/
def stripList (l : List String) : List String :=
  (((l.reverse.dropWhile (fun x => x = "")).reverse).dropWhile (fun x => x = ""))

/-- Python's `str.strip()` on the characters this program produces: drop
whitespace characters from both ends. -/
def pyStrip (s : String) : String :=
  ⟨((s.data.dropWhile Char.isWhitespace).reverse.dropWhile Char.isWhitespace).reverse⟩

/-- The raw content of one zip entry, with XML parsing as the boundary: an
`xmlData` entry parses to its tree, a `binData` entry fails to parse. -/
inductive EntryData where
  | xmlData (x : XmlElem)
  | binData (b : List Nat)

/-- The zip archive: named entries in enumeration (`namelist()`) order. -/
abbrev Archive := List (String × EntryData)

/-- `zipf.namelist()`. -/
def namelist (ar : Archive) : List String :=
  ar.map (fun e => e.1)

/-- `zipf.read(n)`: the bytes of the named entry, `KeyError` if absent. -/
def zread (ar : Archive) (n : String) : Except PErr EntryData :=
  match ar.find? (fun e => e.1 = n) with
  | some e => .ok e.2
  | none => .error .keyError

/-- `ET.fromstring` on an entry's bytes. -/
def fromstring : EntryData → Except PErr XmlElem
  | .xmlData x => .ok x
  | .binData _ => .error .parseError

/-- Read a named entry and transform it in non-split mode. -/
def readText (ar : Archive) (n : String) : Except PErr String :=
  zread ar n >>= fun d => (fromstring d).map xml2textStr

/-- Read a named entry and transform it in split mode. -/
def readSeg (ar : Archive) (n : String) : Except PErr (List String) :=
  zread ar n >>= fun d => fromstring d >>= xml2textSplit

/-- Strip a literal pattern from the front of a character list, returning
the remainder on success. -/
def dropPre : List Char → List Char → Option (List Char)
  | [], t => some t
  | _ :: _, [] => none
  | p :: ps, c :: cs => if c = p then dropPre ps cs else none

/-- `re.match(pat ++ "[0-9]*.xml", s)` truthiness for a literal `pat`: the
match is anchored at the start only, `[0-9]*` backtracks, `.` matches any
character except a newline, and anything may follow the `l`. -/
def reMatchPartName (pat : List Char) (s : String) : Bool :=
  match dropPre pat s.data with
  | none => false
  | some t =>
    (List.range ((t.takeWhile Char.isDigit).length + 1)).any fun k =>
      match t.drop k with
      | [] => false
      | c :: rest => (c != '\n') && (dropPre "xml".data rest).isSome

/-- `re.match('word/header[0-9]*.xml', fname)` truthiness. -/
def reMatchHeader (s : String) : Bool :=
  reMatchPartName "word/header".data s

/-- `re.match('word/footer[0-9]*.xml', fname)` truthiness. -/
def reMatchFooter (s : String) : Bool :=
  reMatchPartName "word/footer".data s

/-- `process` in non-split mode before the final `.strip()`: fold the
matching header entries, then the mandatory `word/document.xml`, then the
matching footer entries, concatenating each part's text. -/
def assembleStr (ar : Archive) : Except PErr String :=
  (namelist ar).foldlM
      (fun acc n =>
        if reMatchHeader n then readText ar n >>= fun t => pure (acc ++ t)
        else pure acc) "" >>= fun t1 =>
    readText ar "word/document.xml" >>= fun td =>
      (namelist ar).foldlM
        (fun acc n =>
          if reMatchFooter n then readText ar n >>= fun t => pure (acc ++ t)
          else pure acc) (t1 ++ td)

/-- `process(docx, split_pages=False)`: the assembled text, stripped. -/
def processStr (ar : Archive) : Except PErr String :=
  (assembleStr ar).map pyStrip

/-- `process` in split mode before the final post-processing: the same
three phases, extending a list of segments. -/
def assembleSplit (ar : Archive) : Except PErr (List String) :=
  (namelist ar).foldlM
      (fun acc n =>
        if reMatchHeader n then readSeg ar n >>= fun t => pure (acc ++ t)
        else pure acc) [] >>= fun t1 =>
    readSeg ar "word/document.xml" >>= fun td =>
      (namelist ar).foldlM
        (fun acc n =>
          if reMatchFooter n then readSeg ar n >>= fun t => pure (acc ++ t)
          else pure acc) (t1 ++ td)

/-- `process(docx, split_pages=True)`:
`[t.strip() for t in strip_list(text)]`. -/
def processSplit (ar : Archive) : Except PErr (List String) :=
  (assembleSplit ar).map (fun l => (stripList l).map pyStrip)

/-- `"".join`-style concatenation, the shape string accumulation unfolds
to. -/
def concatAll (l : List String) : String :=
  l.foldl (fun a b => a ++ b) ""

/-- `os.path.basename` (posix): the part after the last `/`. -/
def basename (n : String) : String :=
  ⟨(n.data.reverse.takeWhile (fun c => c ≠ '/')).reverse⟩

/-- The extension component of `os.path.splitext` (posix): the part of the
basename from its last dot on, provided some earlier character of the
basename is not a dot (a leading dot run marks a hidden file, not an
extension). -/
def pyExt (n : String) : String :=
  let b := (n.data.reverse.takeWhile (fun c => c ≠ '/')).reverse
  let after := b.reverse.takeWhile (fun c => c ≠ '.')
  if after.length = b.length then ""
  else if (b.take (b.length - after.length - 1)).any (fun c => c ≠ '.') then
    ⟨'.' :: after.reverse⟩
  else ""

/-- The extension allowlist of the image-extraction pass. -/
def imgExts : List String :=
  [".jpg", ".jpeg", ".png", ".bmp"]

/-- The ordered write sequence of the image-extraction pass: for each entry
in enumeration order whose extension is in `imgExts`, write its bytes under
its basename inside the output directory. -/
def imageWrites (ar : Archive) : List (String × EntryData) :=
  ar.filterMap fun e =>
    if pyExt e.1 ∈ imgExts then some (basename e.1, e.2) else none

/-- Apply a write sequence to a directory state (filename to content);
each write replaces the previous content of its filename. -/
def runWrites : List (String × EntryData) → (String → Option EntryData) →
    (String → Option EntryData)
  | [], fs => fs
  | (k, v) :: ws, fs =>
    runWrites ws (fun n => if n = k then some v else fs n)

/-- The output-directory state after image extraction, starting from an
empty directory. -/
def finalFS (ar : Archive) : String → Option EntryData :=
  runWrites (imageWrites ar) (fun _ => none)

/-- `process(docx, split_pages=False, img_dir)`: the text result paired
with the write sequence image extraction performs (empty when no image
directory is supplied). -/
def processStrFull (ar : Archive) (imgDir : Option String) :
    Except PErr String × List (String × EntryData) :=
  (processStr ar, match imgDir with | some _ => imageWrites ar | none => [])

/-- `process(docx, split_pages=True, img_dir)`: split-mode analogue of
`processStrFull`. -/
def processSplitFull (ar : Archive) (imgDir : Option String) :
    Except PErr (List String) × List (String × EntryData) :=
  (processSplit ar, match imgDir with | some _ => imageWrites ar | none => [])

/-! Concrete documents and archives used to evaluate the embedding. -/

/-- A `w:t` element holding the given text. -/
def tElem (s : String) : XmlElem :=
  .mk (qn "w:t") [] (some s) []

/-- A `w:r` run holding one text element. -/
def mkRun (s : String) : XmlElem :=
  .mk (qn "w:r") [] none [tElem s]

/-- A `w:p` paragraph holding one run. -/
def mkPara (s : String) : XmlElem :=
  .mk (qn "w:p") [] none [mkRun s]

/-- A `w:document` whose body is one paragraph per given string. -/
def mkDoc (ts : List String) : XmlElem :=
  .mk (qn "w:document") [] none
    [.mk (qn "w:body") [] none (ts.map mkPara)]

/-- A page break: `<w:br w:type="page"/>`. -/
def brPage : XmlElem :=
  .mk (qn "w:br") [(qn "w:type", "page")] none []

/-- A plain line break: `<w:br/>`, no attributes. -/
def brPlain : XmlElem :=
  .mk (qn "w:br") [] none []

/-- A break with a non-page type attribute. -/
def brTyped : XmlElem :=
  .mk (qn "w:br") [(qn "w:type", "textWrapping")] none []

/-- A `w:document` with the given elements as direct body content. -/
def mkDocRaw (es : List XmlElem) : XmlElem :=
  .mk (qn "w:document") [] none [.mk (qn "w:body") [] none es]

/-- Transform each named part in order, collecting the results. -/
def mapParts {α : Type} (g : String → Except PErr α) :
    List String → Except PErr (List α)
  | [] => pure []
  | n :: ns => g n >>= fun t => mapParts g ns >>= fun ts => pure (t :: ts)

/-- The assembly order as the spec words it: transform the header entries
(in enumeration order), then the main document part, then the footer
entries, and concatenate header text, body text, footer text. -/
def specOrderStr (ar : Archive) : Except PErr String :=
  mapParts (readText ar) ((namelist ar).filter reMatchHeader) >>= fun hs =>
    readText ar "word/document.xml" >>= fun d =>
      mapParts (readText ar) ((namelist ar).filter reMatchFooter) >>= fun fs =>
        pure (concatAll hs ++ d ++ concatAll fs)

/-- Split-mode analogue of `specOrderStr`: header segments, then body
segments, then footer segments. -/
def specOrderSplit (ar : Archive) : Except PErr (List String) :=
  mapParts (readSeg ar) ((namelist ar).filter reMatchHeader) >>= fun hs =>
    readSeg ar "word/document.xml" >>= fun d =>
      mapParts (readSeg ar) ((namelist ar).filter reMatchFooter) >>= fun fs =>
        pure (hs.flatten ++ d ++ fs.flatten)

/-- Archive with one header, the main document, and one footer. -/
def arHBF : Archive :=
  [("word/header1.xml", .xmlData (mkDoc ["H1"])),
   ("word/document.xml", .xmlData (mkDoc ["BODY"])),
   ("word/footer1.xml", .xmlData (mkDoc ["F1"]))]

/-- Archive whose main document is a single paragraph holding `Hello`. -/
def arHello : Archive :=
  [("word/document.xml", .xmlData (mkDoc ["Hello"]))]

/-- Archive whose main document is a whitespace-only run, a page break, a
text run, and a page break. -/
def arWsEdge : Archive :=
  [("word/document.xml", .xmlData (mkDocRaw [tElem " ", brPage, tElem "A", brPage]))]

/-- Archive holding an entry whose name has a `Z` where the header pattern
spells a dot, plus the main document. -/
def arOddHeader : Archive :=
  [("word/headerZxml", .xmlData (mkDoc ["H"])),
   ("word/document.xml", .xmlData (mkDoc ["B"]))]

/-- Archive with image entries: a png under `media/`, a text file, and a
second entry elsewhere sharing the basename `image1.png`. -/
def arImg : Archive :=
  [("word/document.xml", .xmlData (mkDoc ["X"])),
   ("media/image1.png", .binData [255, 216]),
   ("docProps/thumb.txt", .binData [7]),
   ("other/image1.png", .binData [1, 2])]

/-- A document part holding a plain attribute-less line break. -/
def docBrPlain : XmlElem :=
  mkDocRaw [XmlElem.mk (qn "w:p") [] none [brPlain]]

/-! Helper lemmas. -/

theorem exceptBindOk {α β : Type} (a : α) (f : α → Except PErr β) :
    (Except.ok a >>= f) = f a := rfl

theorem exceptBindErr {α β : Type} (e : PErr) (f : α → Except PErr β) :
    ((Except.error e : Except PErr α) >>= f) = Except.error e := rfl

theorem exceptPure {α : Type} (a : α) :
    (pure a : Except PErr α) = Except.ok a := rfl

theorem exceptMapOk {α β : Type} (f : α → β) (a : α) :
    (Except.ok a : Except PErr α).map f = Except.ok (f a) := rfl

theorem exceptMapErr {α β : Type} (f : α → β) (e : PErr) :
    (Except.error e : Except PErr α).map f = Except.error e := rfl

theorem exceptPureBind {α β : Type} (a : α) (f : α → Except PErr β) :
    ((pure a : Except PErr α) >>= f) = f a := rfl

/-- A guarded monadic fold is the fold over the filtered list. -/
theorem foldlM_filter {α β : Type} (p : α → Bool) (f : β → α → Except PErr β)
    (l : List α) (b : β) :
    l.foldlM (fun acc a => if p a then f acc a else pure acc) b
      = (l.filter p).foldlM f b := by
  induction l generalizing b with
  | nil => rfl
  | cons a l ih =>
    by_cases h : p a
    · simp only [List.foldlM, h, if_true, List.filter_cons_of_pos h]
      cases r : f b a with
      | error e => simp [exceptBindErr]
      | ok b2 => simp [exceptBindOk, ih]
    · simp only [List.foldlM, h, if_false, exceptPureBind,
        List.filter_cons_of_neg (by simpa using h)]
      exact ih b

theorem concatAll_nil : concatAll [] = "" := rfl

theorem foldl_strAppend (l : List String) (s : String) :
    l.foldl (fun a b => a ++ b) s = s ++ concatAll l := by
  induction l generalizing s with
  | nil => simp [concatAll]
  | cons a l ih =>
    show l.foldl (fun a b => a ++ b) (s ++ a) = s ++ concatAll (a :: l)
    rw [ih]
    show s ++ a ++ concatAll l = s ++ List.foldl (fun a b => a ++ b) ("" ++ a) l
    rw [ih ("" ++ a), String.empty_append, String.append_assoc]

theorem concatAll_cons (a : String) (l : List String) :
    concatAll (a :: l) = a ++ concatAll l := by
  show List.foldl (fun a b => a ++ b) ("" ++ a) l = a ++ concatAll l
  rw [String.empty_append, foldl_strAppend]

/-- Folding string concatenation of monadic reads equals reading them all
and concatenating. -/
theorem foldlM_appendStr (g : String → Except PErr String) (l : List String)
    (init : String) :
    l.foldlM (fun acc n => g n >>= fun t => pure (acc ++ t)) init
      = (mapParts g l >>= fun ts => pure (init ++ concatAll ts)) := by
  induction l generalizing init with
  | nil =>
    simp only [List.foldlM, mapParts, exceptPureBind, concatAll_nil,
      String.append_empty]
  | cons a l ih =>
    simp only [List.foldlM, mapParts]
    cases r : g a with
    | error e => simp [r, exceptBindErr]
    | ok t =>
      simp only [r, exceptBindOk, exceptPureBind]
      rw [ih]
      cases rs : mapParts g l with
      | error e => simp [exceptBindErr]
      | ok ts =>
        simp [exceptBindOk, exceptPureBind, concatAll_cons, String.append_assoc]

/-- Folding list extension of monadic reads equals reading them all and
flattening. -/
theorem foldlM_appendList (g : String → Except PErr (List String))
    (l : List String) (init : List String) :
    l.foldlM (fun acc n => g n >>= fun t => pure (acc ++ t)) init
      = (mapParts g l >>= fun ts => pure (init ++ ts.flatten)) := by
  induction l generalizing init with
  | nil => simp only [List.foldlM, mapParts, exceptPureBind, List.flatten_nil,
      List.append_nil]
  | cons a l ih =>
    simp only [List.foldlM, mapParts]
    cases r : g a with
    | error e => simp [r, exceptBindErr]
    | ok t =>
      simp only [r, exceptBindOk, exceptPureBind]
      rw [ih]
      cases rs : mapParts g l with
      | error e => simp [exceptBindErr]
      | ok ts => simp [exceptBindOk, exceptPureBind, List.append_assoc]

/-- The non-split assembler follows the spec order: header parts in
enumeration order, then the main document, then footer parts. -/
theorem assembleStr_eq_specOrder (ar : Archive) :
    assembleStr ar = specOrderStr ar := by
  unfold assembleStr specOrderStr
  simp only [foldlM_filter, foldlM_appendStr]
  cases h1 : mapParts (readText ar) ((namelist ar).filter reMatchHeader) with
  | error e => simp [exceptBindErr]
  | ok hs =>
    simp only [exceptBindOk, exceptPureBind]
    cases h2 : readText ar "word/document.xml" with
    | error e => simp [exceptBindErr]
    | ok d =>
      simp only [exceptBindOk]
      cases h3 : mapParts (readText ar) ((namelist ar).filter reMatchFooter) with
      | error e => simp [exceptBindErr]
      | ok fs =>
        simp [exceptBindOk, exceptPureBind, String.empty_append,
          String.append_assoc]

/-- The split assembler follows the same spec order. -/
theorem assembleSplit_eq_specOrder (ar : Archive) :
    assembleSplit ar = specOrderSplit ar := by
  unfold assembleSplit specOrderSplit
  simp only [foldlM_filter, foldlM_appendList]
  cases h1 : mapParts (readSeg ar) ((namelist ar).filter reMatchHeader) with
  | error e => simp [exceptBindErr]
  | ok hs =>
    simp only [exceptBindOk, exceptPureBind]
    cases h2 : readSeg ar "word/document.xml" with
    | error e => simp [exceptBindErr]
    | ok d =>
      simp only [exceptBindOk]
      cases h3 : mapParts (readSeg ar) ((namelist ar).filter reMatchFooter) with
      | error e => simp [exceptBindErr]
      | ok fs => simp [exceptBindOk, exceptPureBind, List.append_assoc]

theorem stripList_eq_rdrop (l : List String) :
    stripList l
      = (l.rdropWhile (fun x => x = "")).dropWhile (fun x => x = "") := rfl

theorem rdropWhile_append_rtakeWhile {α : Type} (p : α → Bool) (l : List α) :
    l.rdropWhile p ++ l.rtakeWhile p = l := by
  rw [List.rdropWhile, List.rtakeWhile, ← List.reverse_append,
    List.takeWhile_append_dropWhile, List.reverse_reverse]

/-- A nonempty `strip_list` result starts with a non-empty string. -/
theorem stripList_head_ne (l : List String) (h : stripList l ≠ []) :
    (stripList l).head? ≠ some "" := by
  rw [stripList_eq_rdrop] at h ⊢
  have h1 := List.head_dropWhile_not (fun x : String => x = "")
    (l.rdropWhile (fun x => x = "")) h
  rw [List.head?_eq_head h]
  intro hc
  rw [Option.some_inj] at hc
  rw [hc] at h1
  simp at h1

/-- A nonempty `strip_list` result ends with a non-empty string. -/
theorem stripList_getLast_ne (l : List String) (h : stripList l ≠ []) :
    (stripList l).getLast? ≠ some "" := by
  rw [stripList_eq_rdrop] at h ⊢
  set d := (l.rdropWhile (fun x => x = "")).dropWhile (fun x => x = "") with hd
  obtain ⟨pre, hpre⟩ :=
    List.dropWhile_suffix (l := l.rdropWhile (fun x => x = ""))
      (p := fun x => x = "")
  have hm : l.rdropWhile (fun x : String => x = "") ≠ [] := by
    intro hnil
    rw [hd, hnil] at h
    exact h rfl
  have h2 := List.rdropWhile_last_not (fun x : String => x = "") l hm
  have hq : d.getLast? = (l.rdropWhile (fun x : String => x = "")).getLast? := by
    rw [← hpre]
    exact (List.getLast?_append_of_ne_nil pre h).symm
  rw [hq, List.getLast?_eq_getLast_of_ne_nil hm]
  intro hc
  rw [Option.some_inj] at hc
  rw [hc] at h2
  simp at h2

/-- `strip_list` removes an all-empty border on each side and keeps the
middle intact. -/
theorem stripList_decomp (l : List String) :
    ∃ pre suf, l = pre ++ stripList l ++ suf ∧
      (∀ x ∈ pre, x = "") ∧ (∀ x ∈ suf, x = "") := by
  refine ⟨(l.rdropWhile (fun x => x = "")).takeWhile (fun x => x = ""),
    l.rtakeWhile (fun x => x = ""), ?_, ?_, ?_⟩
  · rw [stripList_eq_rdrop,
      List.takeWhile_append_dropWhile (fun x : String => x = "")
        (l.rdropWhile (fun x => x = "")),
      rdropWhile_append_rtakeWhile]
  · intro x hx
    have := List.mem_takeWhile_imp hx
    simpa using this
  · intro x hx
    have := List.mem_rtakeWhile_imp hx
    simpa using this

theorem pyStrip_data (s : String) :
    (pyStrip s).data
      = (s.data.dropWhile Char.isWhitespace).rdropWhile Char.isWhitespace := rfl

/-- After dropping leading then trailing runs, another leading drop is the
identity: the remaining head already fails the predicate. -/
theorem dropWhile_rdropWhile_dropWhile {α : Type} (p : α → Bool) (l : List α) :
    ((l.dropWhile p).rdropWhile p).dropWhile p = (l.dropWhile p).rdropWhile p := by
  cases hr : (l.dropWhile p).rdropWhile p with
  | nil => rfl
  | cons a r2 =>
    obtain ⟨t, hpre⟩ := List.rdropWhile_prefix p (l.dropWhile p)
    rw [hr] at hpre
    have hm : l.dropWhile p = a :: (r2 ++ t) := by
      rw [← hpre]
      rfl
    have hne : l.dropWhile p ≠ [] := by
      rw [hm]
      exact List.cons_ne_nil _ _
    have hhead := List.head_dropWhile_not p l hne
    have hha : (l.dropWhile p).head hne = a := by
      have h1 : (l.dropWhile p).head? = some a := by
        rw [hm]
        rfl
      rw [List.head?_eq_head hne, Option.some_inj] at h1
      exact h1
    rw [hha] at hhead
    rw [List.dropWhile_cons, hhead]
    simp

/-- Stripping is idempotent: a stripped string has no surrounding
whitespace left. -/
theorem pyStrip_idem (s : String) : pyStrip (pyStrip s) = pyStrip s := by
  apply String.ext
  rw [pyStrip_data, pyStrip_data s]
  rw [dropWhile_rdropWhile_dropWhile, List.rdropWhile_idempotent]

theorem dropPre_eq_some (pat : List Char) (l t : List Char) :
    dropPre pat l = some t ↔ l = pat ++ t := by
  induction pat generalizing l with
  | nil => simp [dropPre, eq_comm]
  | cons p ps ih =>
    cases l with
    | nil => simp [dropPre]
    | cons c cs =>
      by_cases hc : c = p
      · subst hc
        simp [dropPre, ih]
      · simp [dropPre, hc, Ne.symm hc]

theorem length_takeWhile_of_all {α : Type} (p : α → Bool) (ds r : List α)
    (h : ∀ x ∈ ds, p x) :
    ds.length ≤ ((ds ++ r).takeWhile p).length := by
  induction ds with
  | nil => simp
  | cons a ds ih =>
    have ha : p a := h a (List.mem_cons_self a ds)
    rw [List.cons_append, List.takeWhile_cons_of_pos ha]
    simpa using ih fun x hx => h x (List.mem_cons_of_mem a hx)

theorem all_take_of_le_takeWhile {α : Type} (p : α → Bool) (l : List α)
    (k : Nat) (hk : k ≤ (l.takeWhile p).length) : ∀ x ∈ l.take k, p x := by
  intro x hx
  have heq : l.take k = (l.takeWhile p).take k := by
    conv_lhs => rw [← List.takeWhile_append_dropWhile p l]
    exact List.take_append_of_le_length hk
  rw [heq] at hx
  exact List.mem_takeWhile_imp (List.mem_of_mem_take hx)

/-- What the `re.match` model recognizes: the literal pattern, a run of
ASCII digits, any single non-newline character, the literal `xml`, and an
arbitrary remainder. -/
theorem reMatchPartName_iff (pat : List Char) (s : String) :
    reMatchPartName pat s = true ↔
      ∃ ds c rest, (∀ d ∈ ds, Char.isDigit d) ∧ c ≠ '\n' ∧
        s.data = pat ++ ds ++ c :: ("xml".data ++ rest) := by
  unfold reMatchPartName
  cases hdp : dropPre pat s.data with
  | none =>
    simp only [Bool.false_eq_true, false_iff]
    rintro ⟨ds, c, rest, _, _, heq⟩
    have h2 : dropPre pat s.data = some (ds ++ c :: ("xml".data ++ rest)) :=
      (dropPre_eq_some pat s.data _).mpr (by rw [heq, List.append_assoc])
    rw [hdp] at h2
    cases h2
  | some t =>
    have ht : s.data = pat ++ t := (dropPre_eq_some pat s.data t).mp hdp
    rw [List.any_eq_true]
    constructor
    · rintro ⟨k, hkmem, hf⟩
      have hk : k ≤ (t.takeWhile Char.isDigit).length :=
        Nat.lt_succ_iff.mp (List.mem_range.mp hkmem)
      cases hdrop : t.drop k with
      | nil => rw [hdrop] at hf; cases hf
      | cons c rest =>
        rw [hdrop] at hf
        have hf2 : ((c != '\n') && (dropPre "xml".data rest).isSome) = true := hf
        rw [Bool.and_eq_true] at hf2
        have hc : c ≠ '\n' := by
          intro hcn
          rw [hcn] at hf2
          simp at hf2
        obtain ⟨r2, hr2⟩ : ∃ r2, rest = "xml".data ++ r2 := by
          cases ho : dropPre "xml".data rest with
          | none => rw [ho] at hf2; simp at hf2
          | some r2 => exact ⟨r2, (dropPre_eq_some _ _ _).mp ho⟩
        refine ⟨t.take k, c, r2,
          all_take_of_le_takeWhile Char.isDigit t k hk, hc, ?_⟩
        rw [ht, List.append_assoc]
        congr 1
        rw [← hr2, ← hdrop, List.take_append_drop]
    · rintro ⟨ds, c, rest, hds, hc, heq⟩
      have hteq : t = ds ++ c :: ("xml".data ++ rest) := by
        have h0 : pat ++ t = pat ++ (ds ++ c :: ("xml".data ++ rest)) := by
          rw [← ht, heq, List.append_assoc]
        exact List.append_cancel_left h0
      refine ⟨ds.length, ?_, ?_⟩
      · rw [List.mem_range, Nat.lt_succ_iff, hteq]
        exact length_takeWhile_of_all Char.isDigit ds _ hds
      · have hdrop : t.drop ds.length = c :: ("xml".data ++ rest) := by
          rw [hteq]
          exact List.drop_left ds _
        rw [hdrop]
        show ((c != '\n') && (dropPre "xml".data ("xml".data ++ rest)).isSome) = true
        have h1 : (c != '\n') = true := by simpa using hc
        have h2 : (dropPre "xml".data ("xml".data ++ rest)).isSome = true := by
          rw [(dropPre_eq_some "xml".data _ rest).mpr rfl]
          rfl
        rw [h1, h2]
        rfl

theorem foldl_appendMap {α : Type} (f : α → String) (l : List α) (s : String) :
    l.foldl (fun acc e => acc ++ f e) s = s ++ concatAll (l.map f) := by
  induction l generalizing s with
  | nil => simp [concatAll]
  | cons a l ih =>
    show l.foldl (fun acc e => acc ++ f e) (s ++ f a) = s ++ concatAll (f a :: l.map f)
    rw [ih, concatAll_cons, String.append_assoc]

theorem xml2textStr_eq_concat (root : XmlElem) :
    xml2textStr root = concatAll ((preorder root).map nodeTextStr) := by
  unfold xml2textStr
  rw [foldl_appendMap, String.empty_append]

theorem concatAll_append (a b : List String) :
    concatAll (a ++ b) = concatAll a ++ concatAll b := by
  show (a ++ b).foldl (fun x y => x ++ y) "" = _
  rw [List.foldl_append, foldl_strAppend]
  rfl

/-- Transforming a document made of simple paragraphs: each paragraph
contributes its double-newline marker followed by its text. -/
theorem xml2textStr_mkDoc (ts : List String) :
    xml2textStr (mkDoc ts) = concatAll (ts.map (fun t => "\n\n" ++ t)) := by
  rw [xml2textStr_eq_concat]
  have hpre : preorder (mkDoc ts)
      = mkDoc ts :: XmlElem.mk (qn "w:body") [] none (ts.map mkPara) ::
          (preorderList (ts.map mkPara) ++ []) := rfl
  rw [hpre]
  have hkey : ∀ us : List String,
      concatAll ((preorderList (us.map mkPara)).map nodeTextStr)
        = concatAll (us.map (fun t => "\n\n" ++ t)) := by
    intro us
    induction us with
    | nil => rfl
    | cons t us ih =>
      have hstep : preorderList ((t :: us).map mkPara)
          = [mkPara t, mkRun t, tElem t] ++ preorderList (us.map mkPara) := rfl
      rw [hstep, List.map_append, concatAll_append, ih]
      have hthree : concatAll ([mkPara t, mkRun t, tElem t].map nodeTextStr)
          = "\n\n" ++ t := by
        show concatAll ["\n\n", "", t] = "\n\n" ++ t
        rw [concatAll_cons, concatAll_cons, concatAll_cons, concatAll_nil,
          String.append_empty, String.empty_append]
      rw [hthree, List.map_cons, concatAll_cons]
  rw [List.map_cons, List.map_cons, concatAll_cons, concatAll_cons,
    List.append_nil]
  have h0 : nodeTextStr (mkDoc ts) = "" := rfl
  have h1 : nodeTextStr (XmlElem.mk (qn "w:body") [] none (ts.map mkPara)) = "" := rfl
  rw [h0, h1, String.empty_append, String.empty_append, hkey]

theorem find?_match_append {α : Type} (p : α → Bool) (l1 l2 : List α) :
    (l1 ++ l2).find? p
      = (match l1.find? p with
         | some x => some x
         | none => l2.find? p) := by
  induction l1 with
  | nil => rfl
  | cons a l1 ih =>
    by_cases h : p a
    · rw [List.cons_append, List.find?_cons_of_pos _ h, List.find?_cons_of_pos _ h]
    · rw [List.cons_append, List.find?_cons_of_neg _ h, List.find?_cons_of_neg _ h, ih]

/-- The content a write sequence leaves at a filename: the payload of the
last write to that filename, else what was there before. -/
theorem runWrites_eq (ws : List (String × EntryData))
    (fs : String → Option EntryData) (n : String) :
    runWrites ws fs n
      = (match ws.reverse.find? (fun kv => kv.1 = n) with
         | some kv => some kv.2
         | none => fs n) := by
  induction ws generalizing fs with
  | nil => rfl
  | cons w ws ih =>
    show runWrites ws (fun m => if m = w.1 then some w.2 else fs m) n = _
    rw [ih, List.reverse_cons, find?_match_append]
    cases hf : ws.reverse.find? (fun kv => kv.1 = n) with
    | some kv => rfl
    | none =>
      by_cases hn : w.1 = n
      · rw [List.find?_cons_of_pos _ (by simpa using hn)]
        simp [hn]
      · rw [List.find?_cons_of_neg _ (by simpa using hn)]
        simp only [List.find?_nil]
        have : ¬ (n = w.1) := fun hc => hn hc.symm
        simp [this]

/-- Membership in the image write list. -/
theorem mem_imageWrites (ar : Archive) (n : String) (d : EntryData) :
    (n, d) ∈ imageWrites ar
      ↔ ∃ e ∈ ar, pyExt e.1 ∈ imgExts ∧ n = basename e.1 ∧ d = e.2 := by
  unfold imageWrites
  rw [List.mem_filterMap]
  constructor
  · rintro ⟨e, he, hf⟩
    by_cases hx : pyExt e.1 ∈ imgExts
    · rw [if_pos hx, Option.some_inj] at hf
      exact ⟨e, he, hx, congrArg Prod.fst hf.symm, congrArg Prod.snd hf.symm⟩
    · rw [if_neg hx] at hf
      cases hf
  · rintro ⟨e, he, hx, hn, hd⟩
    exact ⟨e, he, by rw [if_pos hx, hn, hd]⟩

/-- Reading the mandatory document part fails when the archive lacks it. -/
theorem readText_missing (ar : Archive)
    (h : "word/document.xml" ∉ namelist ar) :
    readText ar "word/document.xml" = .error .keyError := by
  unfold readText zread
  have hf : ar.find? (fun e => e.1 = "word/document.xml") = none := by
    rw [List.find?_eq_none]
    intro x hx
    simp only [decide_eq_true_eq]
    intro hx1
    exact h (hx1 ▸ List.mem_map_of_mem (fun e => e.1) hx)
  rw [hf]
  rfl

theorem readSeg_missing (ar : Archive)
    (h : "word/document.xml" ∉ namelist ar) :
    readSeg ar "word/document.xml" = .error .keyError := by
  unfold readSeg zread
  have hf : ar.find? (fun e => e.1 = "word/document.xml") = none := by
    rw [List.find?_eq_none]
    intro x hx
    simp only [decide_eq_true_eq]
    intro hx1
    exact h (hx1 ▸ List.mem_map_of_mem (fun e => e.1) hx)
  rw [hf]
  rfl

/-- Without `word/document.xml` the non-split assembly fails outright. -/
theorem assembleStr_missing (ar : Archive)
    (h : "word/document.xml" ∉ namelist ar) :
    ∃ e, assembleStr ar = .error e := by
  unfold assembleStr
  cases hf : (namelist ar).foldlM
      (fun acc n =>
        if reMatchHeader n then readText ar n >>= fun t => pure (acc ++ t)
        else pure acc) "" with
  | error e => exact ⟨e, by rw [exceptBindErr]⟩
  | ok t1 =>
    refine ⟨.keyError, ?_⟩
    rw [exceptBindOk, readText_missing ar h, exceptBindErr]

/-- Without `word/document.xml` the split assembly fails outright. -/
theorem assembleSplit_missing (ar : Archive)
    (h : "word/document.xml" ∉ namelist ar) :
    ∃ e, assembleSplit ar = .error e := by
  unfold assembleSplit
  cases hf : (namelist ar).foldlM
      (fun acc n =>
        if reMatchHeader n then readSeg ar n >>= fun t => pure (acc ++ t)
        else pure acc) ([] : List String) with
  | error e => exact ⟨e, by rw [exceptBindErr]⟩
  | ok t1 =>
    refine ⟨.keyError, ?_⟩
    rw [exceptBindOk, readSeg_missing ar h, exceptBindErr]

/-! Claim theorems. -/

/-- Claim C1 (code bug evidence): the claim says split-mode `xml2text`
returns the completed segments plus the trailing accumulator as a final
segment, so a one-paragraph `Hello` document with zero page breaks should
yield one segment.  The code returns `texts` without appending the
accumulator: the same document holds the text `\n\nHello` in non-split
mode, yet split-mode `xml2text` returns no segment at all and `process`
returns the empty list. -/
theorem claim_C1_code_eval :
    xml2textStr (mkDoc ["Hello"]) = "\n\nHello" ∧
      xml2textSplit (mkDoc ["Hello"]) = .ok [] ∧
      processSplit arHello = .ok [] :=
  ⟨rfl, rfl, rfl⟩

/-- Claim C2 (code bug evidence): the claim says a break element without a
page-type attribute appends one newline and never fails in either mode.
In split mode the code indexes `list(child.attrib.values())[0]` on the
attribute-less `<w:br/>`, raising `IndexError`; non-split mode and breaks
carrying a non-page attribute do append the newline. -/
theorem claim_C2_code_eval :
    stepSplit ([], "") brPlain = .error .indexError ∧
      xml2textSplit docBrPlain = .error .indexError ∧
      nodeTextStr brPlain = "\n" ∧
      xml2textStr docBrPlain = "\n\n\n" ∧
      stepSplit ([], "") brTyped = .ok ([], "\n") :=
  ⟨rfl, rfl, rfl, rfl, rfl⟩

/-- Claim C3 counterexample: a split-mode document whose first segment is a
single space before post-processing.  `strip_list` keeps the (truthy)
space segment, per-segment stripping then empties it, so the final result
`["", "A"]` does carry a leading empty-string segment, contrary to the
claim. -/
theorem claim_C3_counterexample :
    processSplit arWsEdge = .ok ["", "A"] ∧ ["", "A"].head? = some "" :=
  ⟨rfl, rfl⟩

/-- Claim C3 as amended: the non-split result never has surrounding
whitespace, and the split result is the per-segment stripping of a list
without leading or trailing empty-before-stripping segments; segments that
were whitespace-only may still strip down to empty edge segments. -/
theorem claim_C3_amended :
    (∀ ar s, processStr ar = .ok s → pyStrip s = s) ∧
      (∀ ar r, processSplit ar = .ok r →
        ∃ pre, r = pre.map pyStrip ∧
          (pre = [] ∨ (pre.head? ≠ some "" ∧ pre.getLast? ≠ some ""))) := by
  constructor
  · intro ar s hs
    unfold processStr at hs
    cases ha : assembleStr ar with
    | error e => rw [ha, exceptMapErr] at hs; cases hs
    | ok t =>
      rw [ha, exceptMapOk, Except.ok.injEq] at hs
      rw [← hs]
      exact pyStrip_idem t
  · intro ar r hr
    unfold processSplit at hr
    cases ha : assembleSplit ar with
    | error e => rw [ha, exceptMapErr] at hr; cases hr
    | ok l =>
      rw [ha, exceptMapOk, Except.ok.injEq] at hr
      refine ⟨stripList l, hr.symm, ?_⟩
      by_cases he : stripList l = []
      · exact Or.inl he
      · exact Or.inr ⟨stripList_head_ne l he, stripList_getLast_ne l he⟩

/-- Claim C3 amended witness at concrete archives. -/
theorem claim_C3_witness :
    pyStrip "Hello" = "Hello" ∧
      (∃ pre, ["", "A"] = pre.map pyStrip ∧
        (pre = [] ∨ (pre.head? ≠ some "" ∧ pre.getLast? ≠ some ""))) :=
  ⟨claim_C3_amended.1 arHello "Hello" rfl,
    claim_C3_amended.2 arWsEdge ["", "A"] rfl⟩

/-- Claim C4: `process` assembles header parts (archive enumeration
order), then the mandatory main document, then footer parts, in both
modes; concretely the header/body/footer archive yields
`H1\n\nBODY\n\nF1`. -/
theorem claim_C4 :
    (∀ ar, assembleStr ar = specOrderStr ar) ∧
      (∀ ar, assembleSplit ar = specOrderSplit ar) ∧
      processStr arHBF = .ok "H1\n\nBODY\n\nF1" :=
  ⟨assembleStr_eq_specOrder, assembleSplit_eq_specOrder, rfl⟩

/-- Claim C5: without an entry at `word/document.xml`, `process` fails with
an error in both modes and returns no partial result. -/
theorem claim_C5 (ar : Archive) (h : "word/document.xml" ∉ namelist ar) :
    (∃ e, processStr ar = .error e) ∧ (∃ e, processSplit ar = .error e) := by
  constructor
  · obtain ⟨e, he⟩ := assembleStr_missing ar h
    exact ⟨e, by unfold processStr; rw [he, exceptMapErr]⟩
  · obtain ⟨e, he⟩ := assembleSplit_missing ar h
    exact ⟨e, by unfold processSplit; rw [he, exceptMapErr]⟩

/-- Claim C5 witness: the empty archive. -/
theorem claim_C5_witness :
    ("word/document.xml" ∉ namelist ([] : Archive)) ∧
      ((∃ e, processStr ([] : Archive) = .error e) ∧
        (∃ e, processSplit ([] : Archive) = .error e)) :=
  ⟨by simp [namelist], claim_C5 [] (by simp [namelist])⟩

/-- Claim C6: `strip_list` drops leading and trailing empty strings and
keeps internal elements in order: concretely on
`["", "A", "", "B", ""]`, and in general the result is flanked in the
original list only by empty strings and, when nonempty, starts and ends
with a non-empty string. -/
theorem claim_C6 :
    stripList ["", "A", "", "B", ""] = ["A", "", "B"] ∧
      ∀ l : List String, ∃ pre suf,
        l = pre ++ stripList l ++ suf ∧
          (∀ x ∈ pre, x = "") ∧ (∀ x ∈ suf, x = "") ∧
          (stripList l = [] ∨
            ((stripList l).head? ≠ some "" ∧ (stripList l).getLast? ≠ some "")) := by
  refine ⟨rfl, fun l => ?_⟩
  obtain ⟨pre, suf, h1, h2, h3⟩ := stripList_decomp l
  by_cases he : stripList l = []
  · exact ⟨pre, suf, h1, h2, h3, Or.inl he⟩
  · exact ⟨pre, suf, h1, h2, h3,
      Or.inr ⟨stripList_head_ne l he, stripList_getLast_ne l he⟩⟩

/-- Claim C6 witness at a concrete list. -/
theorem claim_C6_witness :
    ∃ pre suf, ["", "A"] = pre ++ stripList ["", "A"] ++ suf ∧
      (∀ x ∈ pre, x = "") ∧ (∀ x ∈ suf, x = "") ∧
      (stripList ["", "A"] = [] ∨
        ((stripList ["", "A"]).head? ≠ some "" ∧
          (stripList ["", "A"]).getLast? ≠ some "")) :=
  claim_C6.2 ["", "A"]

/-- Claim C7 counterexample: the header pattern is matched by `re.match`
with an unescaped dot and no end anchor, so the entry name
`word/headerZxml` — a `Z` in place of the claimed mandatory dot — is
selected as a header part and its text lands in the output. -/
theorem claim_C7_counterexample :
    reMatchHeader "word/headerZxml" = true ∧
      processStr arOddHeader = .ok "H\n\nB" :=
  ⟨rfl, rfl⟩

/-- Claim C7 as amended: an entry name is selected as a header
(respectively footer) part iff it starts with `word/header`
(respectively `word/footer`), followed by zero or more ASCII digits, then
any single non-newline character, then the literal `xml`, with an
arbitrary (possibly non-empty) remainder after it. -/
theorem claim_C7_amended :
    (∀ s, reMatchHeader s = true ↔
        ∃ ds c rest, (∀ d ∈ ds, Char.isDigit d) ∧ c ≠ '\n' ∧
          s.data = "word/header".data ++ ds ++ c :: ("xml".data ++ rest)) ∧
      (∀ s, reMatchFooter s = true ↔
        ∃ ds c rest, (∀ d ∈ ds, Char.isDigit d) ∧ c ≠ '\n' ∧
          s.data = "word/footer".data ++ ds ++ c :: ("xml".data ++ rest)) :=
  ⟨fun s => reMatchPartName_iff "word/header".data s,
    fun s => reMatchPartName_iff "word/footer".data s⟩

/-- Claim C7 amended witness: the decomposition of `word/header1.xml`. -/
theorem claim_C7_witness :
    ∃ ds c rest, (∀ d ∈ ds, Char.isDigit d) ∧ c ≠ '\n' ∧
      ("word/header1.xml" : String).data
        = "word/header".data ++ ds ++ c :: ("xml".data ++ rest) :=
  (claim_C7_amended.1 "word/header1.xml").mp rfl

/-- Claim C8: an archive entry is written iff its `splitext` extension is
one of `.jpg`, `.jpeg`, `.png`, `.bmp` (case-sensitive); the write is
keyed by the entry's basename and carries the entry's exact bytes; the
final directory state holds, for each filename, the payload of the last
matching entry in enumeration order (later entries overwrite earlier
ones); concretely `media/image1.png` is overwritten by the later entry
`other/image1.png` and the `.txt` entry is never written. -/
theorem claim_C8 :
    (∀ ar n d, (n, d) ∈ imageWrites ar
        ↔ ∃ e ∈ ar, pyExt e.1 ∈ imgExts ∧ n = basename e.1 ∧ d = e.2) ∧
      (∀ ar n, finalFS ar n
          = (match (imageWrites ar).reverse.find? (fun kv => kv.1 = n) with
             | some kv => some kv.2
             | none => none)) ∧
      imageWrites arImg
        = [("image1.png", .binData [255, 216]), ("image1.png", .binData [1, 2])] ∧
      finalFS arImg "image1.png" = some (.binData [1, 2]) ∧
      finalFS arImg "thumb.txt" = none := by
  refine ⟨mem_imageWrites, ?_, rfl, rfl, rfl⟩
  intro ar n
  unfold finalFS
  rw [runWrites_eq]

/-- Claim C8 witness: membership of the first png write. -/
theorem claim_C8_witness :
    ("image1.png", EntryData.binData [255, 216]) ∈ imageWrites arImg :=
  (claim_C8.1 arImg "image1.png" (.binData [255, 216])).mpr
    ⟨("media/image1.png", .binData [255, 216]), by simp [arImg], by simp [pyExt, imgExts],
      rfl, rfl⟩

/-- Claim C9: the text component of `process` is identical whether or not
an image output directory is supplied, in both modes: image extraction is
a side effect that never alters the assembled text. -/
theorem claim_C9 :
    ∀ ar imgDir, (processStrFull ar (some imgDir)).1 = (processStrFull ar none).1 ∧
      (processSplitFull ar (some imgDir)).1 = (processSplitFull ar none).1 :=
  fun _ _ => ⟨rfl, rfl⟩

/-- Claim C10: the paragraph marker is emitted when the paragraph node is
visited, before its descendants, so each paragraph's text is preceded by
`\n\n`: a part with paragraphs `ts` yields the concatenation of
`"\n\n" ++ t`, and the one-paragraph `Hello` document gives `\n\nHello`
untrimmed and `Hello` from `process` after the final strip. -/
theorem claim_C10 :
    (∀ ts, xml2textStr (mkDoc ts) = concatAll (ts.map (fun t => "\n\n" ++ t))) ∧
      xml2textStr (mkDoc ["Hello"]) = "\n\n" ++ "Hello" ∧
      processStr arHello = .ok "Hello" :=
  ⟨xml2textStr_mkDoc, rfl, rfl⟩

end Docx2txt
